import Mathlib

/-!
Shallow embedding of the `rust-practice` repository's algorithmic code:
`src/editdist/src/lib.rs` (Levenshtein distance + CIGAR traceback) and
`src/src/lib.rs` (KMP-style substring search).

Sequences are modelled as `List α` with decidable equality (the Rust code
operates on the bytes of its input strings and only ever compares elements
for equality).  Machine integers (`u32`, `usize`) are modelled as `Nat`:
all arithmetic in the source is bounded by the input lengths, so no
wrap-around behaviour is reachable and fixed-width limits are not modelled.
Fallible code paths (Rust panics such as `.unwrap()` on `None`) are
modelled with `Option`, `none` standing for the panic.
-/

set_option maxRecDepth 100000

namespace RustPractice

variable {α : Type} [DecidableEq α]

/-- The three CIGAR operations emitted by the traceback: the string labels
"M", "I", "D" of the source. -/
inductive Op : Type
  | M
  | I
  | D
deriving DecidableEq, Repr

/-- `AlignResult` of `editdist/src/lib.rs`: edit distance plus CIGAR string. -/
structure AlignResult : Type where
  edit_dist : Nat
  cigar : String
deriving DecidableEq, Repr

/-- Insert a labelled cost into a cost-sorted list, after any entry with an
equal or smaller key: this is the stable-sort order produced by Rust's
`sort_by_key`. -/
def sortedInsert (p : Op × Nat) : List (Op × Nat) → List (Op × Nat)
  | [] => [p]
  | q :: qs => if p.2 < q.2 then p :: q :: qs else q :: sortedInsert p qs

/-- Stable sort by cost, as `move_choices.sort_by_key(|k| k.1)` does. -/
def sortMoves (l : List (Op × Nat)) : List (Op × Nat) :=
  l.foldl (fun acc p => sortedInsert p acc) []

/-- The `move_choices` selection of the source: build the list
`[("M", m), ("I", i), ("D", d)]`, stable-sort it by cost, take element 0. -/
def chooseMove (m i d : Nat) : Op × Nat :=
  (sortMoves [(Op.M, m), (Op.I, i), (Op.D, d)]).headD (Op.M, m)

/-- Match/mismatch penalty: `delta` in `edit_dist`. -/
def delta (x y : α) : Nat := if x = y then 0 else 1

/-- One DP row past its first cell: walks `s2` and the previous row in
lockstep, carrying the already-computed left neighbour, exactly as the inner
`while j < s2.len() + 1` loop of `edit_dist` fills row `i` from row `i-1`.
The previous-row argument holds `dp[i-1][j-1], dp[i-1][j], ...`. -/
def rowAux (c : α) : Nat → List α → List Nat → List Nat
  | _, [], _ => []
  | left, b :: bs, d :: u :: rest =>
      let v := (chooseMove (d + delta c b) (u + 1) (left + 1)).2
      v :: rowAux c v bs (u :: rest)
  | _, _ :: _, _ => []

/-- Rows `1 .. n` of the DP matrix, built row by row from the previous row,
as the outer `while i < s1.len() + 1` loop does; cell `(i, 0)` is
initialised to `i` (the column-0 initialisation loop of the source). -/
def dpMatAux (s2 : List α) : List α → Nat → List Nat → List (List Nat)
  | [], _, _ => []
  | c :: cs, i, prev =>
      let r := i :: rowAux c i s2 prev
      r :: dpMatAux s2 cs (i + 1) r

/-- The full DP matrix of `edit_dist`: row 0 is `0, 1, ..., len(s2)`
(the `collect` initialisation), rows `1 .. len(s1)` are computed. -/
def dpMat (s1 s2 : List α) : List (List Nat) :=
  let r0 := List.range (s2.length + 1)
  r0 :: dpMatAux s2 s1 1 r0

/-- Read `dp_mat[i][j]` (all reads performed by the source are in bounds). -/
def entry (mat : List (List Nat)) (i j : Nat) : Nat :=
  (mat.getD i []).getD j 0

/-- The traceback walk of `traceback`: from cell `(i, j)` down to `(0, 0)`,
emitting "I" and moving left along row 0, "D" and moving up along column 0,
and otherwise the stable-sort winner among
`("M", dp[i-1][j-1]), ("I", dp[i-1][j]), ("D", dp[i][j-1])`, moving
diagonally for "M", up for "I" and left for "D" (the `i = i - 1` /
`j = j - 1` updates of the source).  The first argument is fuel: every
iteration of the source's `while` loop decreases `i + j`, so fuel `i + j`
makes the fuelled recursion reproduce the loop exactly. -/
def walk (mat : List (List Nat)) : Nat → Nat → Nat → List Op
  | 0, _, _ => []
  | _ + 1, 0, 0 => []
  | fuel + 1, 0, j + 1 => Op.I :: walk mat fuel 0 j
  | fuel + 1, i + 1, 0 => Op.D :: walk mat fuel i 0
  | fuel + 1, i + 1, j + 1 =>
      match (chooseMove (entry mat i j) (entry mat i (j + 1)) (entry mat (i + 1) j)).1 with
      | Op.M => Op.M :: walk mat fuel i j
      | Op.I => Op.I :: walk mat fuel i (j + 1)
      | Op.D => Op.D :: walk mat fuel (i + 1) j

/-- A single step of the traceback walk: the operation emitted at `(i, j)`
and the cell moved to; `none` at the terminal cell `(0, 0)`. -/
def stepOf (mat : List (List Nat)) : Nat → Nat → Option (Op × Nat × Nat)
  | 0, 0 => none
  | 0, j + 1 => some (Op.I, 0, j)
  | i + 1, 0 => some (Op.D, i, 0)
  | i + 1, j + 1 =>
      match (chooseMove (entry mat i j) (entry mat i (j + 1)) (entry mat (i + 1) j)).1 with
      | Op.M => some (Op.M, i, j)
      | Op.I => some (Op.I, i, j + 1)
      | Op.D => some (Op.D, i + 1, j)

/-- The run-length-encoding loop at the end of `traceback`: `prev`/`count`
is the pending run, the list is the remaining (already reversed) alignment;
a run is flushed when the character changes and once at the end. -/
def rleLoop : List Op → Op → Nat → List (Nat × Op)
  | [], prev, count => [(count, prev)]
  | c :: cs, prev, count =>
      if prev = c then rleLoop cs c (count + 1)
      else (count, prev) :: rleLoop cs c 1

/-- The one-letter string of an operation. -/
def opChar : Op → String
  | Op.M => "M"
  | Op.I => "I"
  | Op.D => "D"

/-- Concatenate `format!("{}{}", count, op)` tokens, as the source pushes
them onto the cigar string. -/
def cigarString (runs : List (Nat × Op)) : String :=
  runs.foldl (fun s r => s ++ toString r.1 ++ opChar r.2) ""

/-- The alignment operations pushed by the `while` loop of `traceback`,
starting at the bottom-right cell of the matrix. -/
def alignOps (mat : List (List Nat)) : List Op :=
  let i := mat.length - 1
  let j := (mat.headD []).length - 1
  walk mat (i + j) i j

/-- The runs of the cigar produced by `traceback` (empty when the alignment
is empty, in which case the source panics before producing anything). -/
def tracebackRuns (mat : List (List Nat)) : List (Nat × Op) :=
  match (alignOps mat).reverse with
  | [] => []
  | c :: cs => rleLoop cs c 1

/-- `traceback` of the source: walk back from the bottom-right cell, reverse
the alignment and run-length encode it.  On an empty alignment the source
evaluates `alignment.chars().rev().next().unwrap()`, which panics; the panic
is modelled as `none`. -/
def traceback (mat : List (List Nat)) : Option String :=
  match (alignOps mat).reverse with
  | [] => none
  | c :: cs => some (cigarString (rleLoop cs c 1))

/-- `edit_dist` of the source: build the DP matrix, read the distance from
its bottom-right cell and the cigar from `traceback`.  The panic inside
`traceback` propagates as `none`; on every non-panicking run the source
returns `Some`. -/
def edit_dist (s1 s2 : List α) : Option AlignResult :=
  let mat := dpMat s1 s2
  (traceback mat).map fun cig => { edit_dist := entry mat s1.length s2.length, cigar := cig }

/-- The public entry point on strings (`compute_alignment` of the spec),
operating on the character list of the inputs. -/
def compute_alignment (s1 s2 : String) : Option AlignResult :=
  edit_dist s1.toList s2.toList

/-- The distance value computed by the builder: the bottom-right DP cell. -/
def editDistance (s1 s2 : List α) : Nat :=
  entry (dpMat s1 s2) s1.length s2.length

/-- Total run count attributed to operation `o` in a run list. -/
def runCountOf (o : Op) (runs : List (Nat × Op)) : Nat :=
  ((runs.filter fun r => r.2 == o).map fun r => r.1).sum

/-!
Embedding of `src/src/lib.rs`: the failure-table construction and the
KMP-style scan.  Both loops of the source terminate only because of
invariants of the data they run on, so they are modelled with explicit
fuel; exhausting the fuel yields `none` (never reached on the runs
examined below, where the fuel strictly dominates the iteration count).
-/

/-- The inner `while j > 0` loop of `return_failure_function_table`, at
outer index `i`: compare `needle[i]` with `needle[jump_table[j-1]]`; on a
match the value `1 + jump_table[i-1]` is written at `i` (`some (some v)`),
on exit with `j = 0` nothing is written (`some none`).  The Rust `j` is the
successor pattern argument. -/
def fftInner (needle : List α) (table : List Nat) (i : Nat) : Nat → Nat → Option (Option Nat)
  | _, 0 => some none
  | 0, _ + 1 => none
  | fuel + 1, j + 1 =>
      if needle.get? i = needle.get? (table.getD j 0) then
        some (some (1 + table.getD (i - 1) 0))
      else
        fftInner needle table i fuel (table.getD (table.getD j 0) 0)

/-- The outer `while i < needle.len()` loop of
`return_failure_function_table`: `left` counts the remaining iterations,
starting from `i = 1`. -/
def fftLoop (needle : List α) : Nat → Nat → List Nat → Option (List Nat)
  | 0, _, table => some table
  | left + 1, i, table =>
      match fftInner needle table i (i + 1) i with
      | none => none
      | some none => fftLoop needle left (i + 1) table
      | some (some v) => fftLoop needle left (i + 1) (table.set i v)

/-- `return_failure_function_table` of the source: a zero-initialised table
of length `len(needle)`, filled in for `i = 1 .. len(needle) - 1`. -/
def return_failure_function_table (needle : List α) : Option (List Nat) :=
  fftLoop needle (needle.length - 1) 1 (List.replicate needle.length 0)

/-- The `while haystack.len() - i0 >= needle.len()` loop of `kmp`, with
state `(i, j, i0)` exactly as in the source; `some (some k)` is a reported
match at offset `k`, `some none` is the `None` fall-through. -/
def kmpLoop (needle haystack : List α) (table : List Nat) :
    Nat → Nat → Nat → Nat → Option (Option Nat)
  | 0, _, _, _ => none
  | fuel + 1, i, j, i0 =>
      if needle.length ≤ haystack.length - i0 then
        if j = needle.length then some (some i0)
        else if haystack.get? i = needle.get? j then
          kmpLoop needle haystack table fuel (i + 1) (j + 1) i0
        else if j = 0 then
          kmpLoop needle haystack table fuel (i + 1) 0 (i + 1)
        else
          kmpLoop needle haystack table fuel i (table.getD (j - 1) 0)
            (i - table.getD (j - 1) 0)
      else some none

/-- `kmp` of the source, with fuel ample for every run below. -/
def kmp (needle haystack : List α) (table : List Nat) : Option (Option Nat) :=
  kmpLoop needle haystack table ((haystack.length + 2) * (needle.length + 2)) 0 0 0

/-- `kmp_wrapper` of the source: build the table, then search. -/
def kmp_wrapper (needle haystack : List α) : Option (Option Nat) :=
  match return_failure_function_table needle with
  | none => none
  | some t => kmp needle haystack t

/-!
Specification-level Levenshtein distance, and the edit-script relation used
to prove its algebraic properties (symmetry, reversal invariance, triangle
inequality).
-/

/-- The textbook Levenshtein recurrence on lists (the spec's
`min(diagonal + mismatch, up + 1, left + 1)` cost model, consuming both
lists from the head). -/
def lev : List α → List α → Nat
  | [], ys => ys.length
  | _ :: xs, [] => xs.length + 1
  | x :: xs, y :: ys =>
      min (lev xs ys + delta x y) (min (lev xs (y :: ys) + 1) (lev (x :: xs) ys + 1))

/-- `E xs ys n`: some edit script of cost `n` (unit-cost substitutions,
insertions and deletions) transforms `xs` into `ys`. -/
inductive E : List α → List α → Nat → Prop
  | nil : E [] [] 0
  | cong (x : α) {xs ys : List α} {n : Nat} : E xs ys n → E (x :: xs) (x :: ys) n
  | subst (x y : α) {xs ys : List α} {n : Nat} : E xs ys n → E (x :: xs) (y :: ys) (n + 1)
  | ins (y : α) {xs ys : List α} {n : Nat} : E xs ys n → E xs (y :: ys) (n + 1)
  | del (x : α) {xs ys : List α} {n : Nat} : E xs ys n → E (x :: xs) ys (n + 1)

lemma lev_nil_right (xs : List α) : lev xs [] = xs.length := by
  cases xs <;> simp [lev]

lemma delta_self (x : α) : delta x x = 0 := by simp [delta]

lemma delta_le_one (x y : α) : delta x y ≤ 1 := by
  unfold delta; split <;> omega

lemma lev_le_diag (x y : α) (xs ys : List α) :
    lev (x :: xs) (y :: ys) ≤ lev xs ys + delta x y := by
  simp only [lev]
  exact min_le_left _ _

lemma lev_le_del (x : α) (xs ys : List α) : lev (x :: xs) ys ≤ lev xs ys + 1 := by
  cases ys with
  | nil => simp [lev, lev_nil_right]
  | cons y ys =>
      simp only [lev]
      exact le_trans (min_le_right _ _) (min_le_left _ _)

lemma lev_le_ins (y : α) (xs ys : List α) : lev xs (y :: ys) ≤ lev xs ys + 1 := by
  cases xs with
  | nil => simp [lev]
  | cons x xs =>
      simp only [lev]
      exact le_trans (min_le_right _ _) (min_le_right _ _)

lemma lev_le_of_E {xs ys : List α} {n : Nat} (h : E xs ys n) : lev xs ys ≤ n := by
  induction h with
  | nil => simp [lev]
  | cong x h ih =>
      rename_i xs ys n
      have h1 := lev_le_diag x x xs ys
      rw [delta_self] at h1
      omega
  | subst x y h ih =>
      rename_i xs ys n
      have h1 := lev_le_diag x y xs ys
      have h2 := delta_le_one x y
      omega
  | ins y h ih =>
      rename_i xs ys n
      have h1 := lev_le_ins y xs ys
      omega
  | del x h ih =>
      rename_i xs ys n
      have h1 := lev_le_del x xs ys
      omega

lemma E_lev : ∀ xs ys : List α, E xs ys (lev xs ys) := by
  intro xs
  induction xs with
  | nil =>
      intro ys
      induction ys with
      | nil =>
          rw [show lev ([] : List α) [] = 0 from by simp [lev]]
          exact E.nil
      | cons y ys ih =>
          have h : lev ([] : List α) (y :: ys) = lev ([] : List α) ys + 1 := by simp [lev]
          rw [h]
          exact E.ins y ih
  | cons x xs ihx =>
      intro ys
      induction ys with
      | nil =>
          have h : lev (x :: xs) ([] : List α) = lev xs ([] : List α) + 1 := by
            simp [lev, lev_nil_right]
          rw [h]
          exact E.del x (ihx [])
      | cons y ys ihy =>
          rw [show lev (x :: xs) (y :: ys) =
            min (lev xs ys + delta x y) (min (lev xs (y :: ys) + 1) (lev (x :: xs) ys + 1))
            from by simp [lev]]
          rcases min_choice (lev xs ys + delta x y)
              (min (lev xs (y :: ys) + 1) (lev (x :: xs) ys + 1)) with h | h
          · rw [h]
            by_cases hxy : x = y
            · subst hxy
              rw [delta_self]
              exact E.cong x (ihx ys)
            · have : delta x y = 1 := by simp [delta, hxy]
              rw [this]
              exact E.subst x y (ihx ys)
          · rw [h]
            rcases min_choice (lev xs (y :: ys) + 1) (lev (x :: xs) ys + 1) with h2 | h2
            · rw [h2]
              exact E.del x (ihx (y :: ys))
            · rw [h2]
              exact E.ins y ihy

lemma E_symm {xs ys : List α} {n : Nat} (h : E xs ys n) : E ys xs n := by
  induction h with
  | nil => exact E.nil
  | cong x h ih => exact E.cong x ih
  | subst x y h ih => exact E.subst y x ih
  | ins y h ih => exact E.del y ih
  | del x h ih => exact E.ins x ih

lemma lev_comm (xs ys : List α) : lev xs ys = lev ys xs :=
  le_antisymm (lev_le_of_E (E_symm (E_lev ys xs))) (lev_le_of_E (E_symm (E_lev xs ys)))

lemma E_append {a b c d : List α} {n m : Nat} (h1 : E a b n) (h2 : E c d m) :
    E (a ++ c) (b ++ d) (n + m) := by
  induction h1 with
  | nil => simpa using h2
  | cong x h ih => exact E.cong x ih
  | subst x y h ih =>
      have := E.subst x y ih
      simpa [Nat.succ_add] using this
  | ins y h ih =>
      have := E.ins y ih
      simpa [Nat.succ_add] using this
  | del x h ih =>
      have := E.del x ih
      simpa [Nat.succ_add] using this

lemma E_reverse {a b : List α} {n : Nat} (h : E a b n) : E a.reverse b.reverse n := by
  induction h with
  | nil => exact E.nil
  | cong x h ih =>
      have := E_append ih (E.cong x E.nil)
      simpa using this
  | subst x y h ih =>
      have := E_append ih (E.subst x y E.nil)
      simpa using this
  | ins y h ih =>
      have := E_append ih (E.ins y E.nil)
      simpa using this
  | del x h ih =>
      have := E_append ih (E.del x E.nil)
      simpa using this

lemma lev_reverse (a b : List α) : lev a.reverse b.reverse = lev a b := by
  refine le_antisymm (lev_le_of_E (E_reverse (E_lev a b))) ?_
  have := lev_le_of_E (E_reverse (E_lev a.reverse b.reverse))
  simpa using this

lemma E_length {a b : List α} {n : Nat} (h : E a b n) :
    b.length ≤ a.length + n ∧ a.length ≤ b.length + n := by
  induction h with
  | nil => simp
  | cong x h ih => simp only [List.length_cons]; omega
  | subst x y h ih => simp only [List.length_cons]; omega
  | ins y h ih => simp only [List.length_cons]; omega
  | del x h ih => simp only [List.length_cons]; omega

lemma lev_cons_right_le (a : List α) (y : α) (b : List α) :
    lev a b ≤ lev a (y :: b) + 1 := by
  induction a with
  | nil =>
      simp only [lev, List.length_cons]
      omega
  | cons x a ih =>
      have hdel := lev_le_del x a b
      have hr : lev (x :: a) (y :: b) =
          min (lev a b + delta x y) (min (lev a (y :: b) + 1) (lev (x :: a) b + 1)) := by
        simp [lev]
      rw [hr]
      omega

lemma lev_le_of_E_right {b c : List α} {n : Nat} (h : E b c n) :
    ∀ a : List α, lev a c ≤ lev a b + n := by
  induction h with
  | nil => intro a; simp
  | cong y hbc ih =>
      rename_i b' c' n'
      intro a
      induction a with
      | nil =>
          have := (E_length hbc).1
          simp only [lev, List.length_cons]
          omega
      | cons x a iha =>
          have k1 : lev (x :: a) (y :: c') ≤ lev a c' + delta x y := lev_le_diag x y a c'
          have k2 : lev (x :: a) (y :: c') ≤ lev a (y :: c') + 1 := lev_le_del x a (y :: c')
          have k3 : lev (x :: a) (y :: c') ≤ lev (x :: a) c' + 1 := lev_le_ins y (x :: a) c'
          have i1 := ih a
          have i3 := ih (x :: a)
          have hr : lev (x :: a) (y :: b') =
              min (lev a b' + delta x y) (min (lev a (y :: b') + 1) (lev (x :: a) b' + 1)) := by
            simp [lev]
          rw [hr]
          omega
  | subst x0 y0 hbc ih =>
      rename_i b' c' n'
      intro a
      induction a with
      | nil =>
          have := (E_length hbc).1
          simp only [lev, List.length_cons]
          omega
      | cons x a iha =>
          have k1 : lev (x :: a) (y0 :: c') ≤ lev a c' + delta x y0 := lev_le_diag x y0 a c'
          have k2 : lev (x :: a) (y0 :: c') ≤ lev a (y0 :: c') + 1 := lev_le_del x a (y0 :: c')
          have k3 : lev (x :: a) (y0 :: c') ≤ lev (x :: a) c' + 1 := lev_le_ins y0 (x :: a) c'
          have i1 := ih a
          have i3 := ih (x :: a)
          have hd := delta_le_one x y0
          have hr : lev (x :: a) (x0 :: b') =
              min (lev a b' + delta x x0) (min (lev a (x0 :: b') + 1) (lev (x :: a) b' + 1)) := by
            simp [lev]
          rw [hr]
          omega
  | ins y0 hbc ih =>
      rename_i b' c' n'
      intro a
      have h1 := lev_le_ins y0 a c'
      have h2 := ih a
      omega
  | del x0 hbc ih =>
      rename_i b' c' n'
      intro a
      have h1 := lev_cons_right_le a x0 b'
      have h2 := ih a
      omega

lemma lev_triangle (a b c : List α) : lev a c ≤ lev a b + lev b c :=
  lev_le_of_E_right (E_lev b c) a

/-!
Correspondence between the iteratively built DP matrix and the recurrence.
-/

/-- The mismatch penalty of cell `(i+1, j+1)`: the comparison
`s1_bytes[i] != s2_bytes[j]` of the source (both indices in bounds on every
read the source performs). -/
def cellDelta (s1 s2 : List α) (i j : Nat) : Nat :=
  if s1.get? i = s2.get? j then 0 else 1

/-- The Levenshtein DP recurrence, indexed by prefix lengths exactly as the
spec writes the matrix invariants. -/
def levIdx (s1 s2 : List α) : Nat → Nat → Nat
  | 0, j => j
  | i + 1, 0 => i + 1
  | i + 1, j + 1 =>
      min (levIdx s1 s2 i j + cellDelta s1 s2 i j)
        (min (levIdx s1 s2 i (j + 1) + 1) (levIdx s1 s2 (i + 1) j + 1))

/-- `[f k, f (k+1), ..., f (k+n-1)]`. -/
def tab {β : Type} (f : Nat → β) (k : Nat) : Nat → List β
  | 0 => []
  | n + 1 => f k :: tab f (k + 1) n

lemma chooseMove_def (m i d : Nat) :
    chooseMove m i d =
      if i < m then (if d < i then (Op.D, d) else (Op.I, i))
      else (if d < m then (Op.D, d) else (Op.M, m)) := by
  by_cases h1 : i < m <;> by_cases h2 : d < i <;> by_cases h3 : d < m <;>
      simp [chooseMove, sortMoves, sortedInsert, h1, h2, h3] <;>
    (exfalso; omega)

lemma chooseMove_snd (m i d : Nat) : (chooseMove m i d).2 = min m (min i d) := by
  rw [chooseMove_def]
  split_ifs <;> simp <;> omega

lemma tab_length {β : Type} (f : Nat → β) : ∀ n k, (tab f k n).length = n := by
  intro n
  induction n with
  | zero => intro k; simp [tab]
  | succ n ih => intro k; simp [tab, ih]

lemma tab_getD {β : Type} (f : Nat → β) (dflt : β) :
    ∀ n k t, t < n → (tab f k n).getD t dflt = f (k + t) := by
  intro n
  induction n with
  | zero => intro k t ht; omega
  | succ n ih =>
      intro k t ht
      cases t with
      | zero => simp [tab]
      | succ t =>
          have h := ih (k + 1) t (by omega)
          simp only [tab, List.getD_cons_succ]
          rw [h]
          congr 1
          omega

lemma tab_snoc {β : Type} (f : Nat → β) : ∀ n k, tab f k (n + 1) = tab f k n ++ [f (k + n)] := by
  intro n
  induction n with
  | zero => intro k; simp [tab]
  | succ n ih =>
      intro k
      rw [show tab f k (n + 1 + 1) = f k :: tab f (k + 1) (n + 1) from rfl]
      rw [ih (k + 1)]
      simp [tab, Nat.add_assoc, Nat.add_comm 1 n]

lemma tab_congr {β : Type} (f g : Nat → β) :
    ∀ n k, (∀ t, t < n → f (k + t) = g (k + t)) → tab f k n = tab g k n := by
  intro n
  induction n with
  | zero => intro k _; rfl
  | succ n ih =>
      intro k h
      simp only [tab]
      rw [show f k = g k from by simpa using h 0 (by omega)]
      rw [ih (k + 1) (fun t ht => by
        rw [show k + 1 + t = k + (t + 1) from by omega]
        exact h (t + 1) (by omega))]

lemma range_eq_tab : ∀ n : Nat, List.range n = tab (fun x => x) 0 n := by
  intro n
  induction n with
  | zero => rfl
  | succ n ih =>
      rw [List.range_succ, ih, tab_snoc]
      simp

lemma levIdx_zero_left (s1 s2 : List α) (j : Nat) : levIdx s1 s2 0 j = j := by
  simp [levIdx]

lemma levIdx_zero_right (s1 s2 : List α) : ∀ i : Nat, levIdx s1 s2 i 0 = i := by
  intro i
  cases i <;> simp [levIdx]

lemma levIdx_succ_succ (s1 s2 : List α) (i j : Nat) :
    levIdx s1 s2 (i + 1) (j + 1) =
      min (levIdx s1 s2 i j + cellDelta s1 s2 i j)
        (min (levIdx s1 s2 i (j + 1) + 1) (levIdx s1 s2 (i + 1) j + 1)) := by
  simp [levIdx]

lemma rowAux_spec (s1 s2 : List α) (i : Nat) (c : α) (hc : s1.get? i = some c) :
    ∀ (bs : List α) (k : Nat), s2.drop k = bs →
      rowAux c (levIdx s1 s2 (i + 1) k) bs (tab (levIdx s1 s2 i) k (s2.length + 1 - k)) =
        tab (levIdx s1 s2 (i + 1)) (k + 1) (s2.length - k) := by
  intro bs
  induction bs with
  | nil =>
      intro k hk
      have hlen : s2.length ≤ k := by
        have h := congrArg List.length hk
        simp [List.length_drop] at h
        omega
      rw [show s2.length - k = 0 from by omega]
      simp [rowAux, tab]
  | cons b bs ih =>
      intro k hk
      have hk1 : k < s2.length := by
        have h := congrArg List.length hk
        simp only [List.length_drop, List.length_cons] at h
        omega
      have hget : s2.get? k = some b := by
        have h0 : (s2.drop k).get? 0 = s2.get? (k + 0) := List.get?_drop s2 k 0
        rw [hk] at h0
        simpa using h0.symm
      have hdrop1 : s2.drop (k + 1) = bs := by
        have h1 : (s2.drop k).drop 1 = s2.drop (k + 1) := List.drop_drop 1 k s2
        rw [hk] at h1
        simpa using h1.symm
      have hδ : cellDelta s1 s2 i k = delta c b := by
        unfold cellDelta delta
        rw [hc, hget]
        by_cases hcb : c = b <;> simp [hcb]
      have e1 : s2.length + 1 - k = (s2.length - (k + 1)) + 1 + 1 := by omega
      rw [e1]
      rw [show tab (levIdx s1 s2 i) k ((s2.length - (k + 1)) + 1 + 1) =
            levIdx s1 s2 i k :: levIdx s1 s2 i (k + 1) ::
              tab (levIdx s1 s2 i) (k + 1 + 1) (s2.length - (k + 1)) from rfl]
      rw [show rowAux c (levIdx s1 s2 (i + 1) k) (b :: bs)
            (levIdx s1 s2 i k :: levIdx s1 s2 i (k + 1) ::
              tab (levIdx s1 s2 i) (k + 1 + 1) (s2.length - (k + 1))) =
          (chooseMove (levIdx s1 s2 i k + delta c b) (levIdx s1 s2 i (k + 1) + 1)
              (levIdx s1 s2 (i + 1) k + 1)).2 ::
            rowAux c ((chooseMove (levIdx s1 s2 i k + delta c b) (levIdx s1 s2 i (k + 1) + 1)
              (levIdx s1 s2 (i + 1) k + 1)).2) bs
              (levIdx s1 s2 i (k + 1) ::
                tab (levIdx s1 s2 i) (k + 1 + 1) (s2.length - (k + 1))) from rfl]
      have hv : (chooseMove (levIdx s1 s2 i k + delta c b) (levIdx s1 s2 i (k + 1) + 1)
          (levIdx s1 s2 (i + 1) k + 1)).2 = levIdx s1 s2 (i + 1) (k + 1) := by
        rw [chooseMove_snd, levIdx_succ_succ, hδ]
      rw [hv]
      have ih1 := ih (k + 1) hdrop1
      rw [show s2.length + 1 - (k + 1) = (s2.length - (k + 1)) + 1 from by omega] at ih1
      rw [show tab (levIdx s1 s2 i) (k + 1) ((s2.length - (k + 1)) + 1) =
            levIdx s1 s2 i (k + 1) ::
              tab (levIdx s1 s2 i) (k + 1 + 1) (s2.length - (k + 1)) from rfl] at ih1
      rw [ih1]
      rw [show s2.length - k = (s2.length - (k + 1)) + 1 from by omega]
      rfl

lemma dpMatAux_spec (s1 s2 : List α) :
    ∀ (cs : List α) (i : Nat), s1.drop i = cs →
      dpMatAux s2 cs (i + 1) (tab (levIdx s1 s2 i) 0 (s2.length + 1)) =
        tab (fun r => tab (levIdx s1 s2 r) 0 (s2.length + 1)) (i + 1) (s1.length - i) := by
  intro cs
  induction cs with
  | nil =>
      intro i hi
      have hlen : s1.length ≤ i := by
        have h := congrArg List.length hi
        simp [List.length_drop] at h
        omega
      rw [show s1.length - i = 0 from by omega]
      simp [dpMatAux, tab]
  | cons c cs ih =>
      intro i hi
      have hi1 : i < s1.length := by
        have h := congrArg List.length hi
        simp only [List.length_drop, List.length_cons] at h
        omega
      have hc : s1.get? i = some c := by
        have h0 : (s1.drop i).get? 0 = s1.get? (i + 0) := List.get?_drop s1 i 0
        rw [hi] at h0
        simpa using h0.symm
      have hdrop1 : s1.drop (i + 1) = cs := by
        have h1 : (s1.drop i).drop 1 = s1.drop (i + 1) := List.drop_drop 1 i s1
        rw [hi] at h1
        simpa using h1.symm
      simp only [dpMatAux]
      have hrow : (i + 1) :: rowAux c (i + 1) s2 (tab (levIdx s1 s2 i) 0 (s2.length + 1)) =
          tab (levIdx s1 s2 (i + 1)) 0 (s2.length + 1) := by
        have h0 := rowAux_spec s1 s2 i c hc s2 0 (by simp)
        simp only [Nat.sub_zero, Nat.zero_add] at h0
        rw [levIdx_zero_right s1 s2 (i + 1)] at h0
        rw [h0]
        rw [show tab (levIdx s1 s2 (i + 1)) 0 (s2.length + 1) =
              levIdx s1 s2 (i + 1) 0 :: tab (levIdx s1 s2 (i + 1)) 1 s2.length from rfl]
        rw [levIdx_zero_right]
      rw [hrow]
      have ih1 := ih (i + 1) hdrop1
      rw [ih1]
      rw [show s1.length - i = (s1.length - (i + 1)) + 1 from by omega]
      rfl

lemma dpMat_spec (s1 s2 : List α) :
    dpMat s1 s2 = tab (fun r => tab (levIdx s1 s2 r) 0 (s2.length + 1)) 0 (s1.length + 1) := by
  simp only [dpMat]
  have h0 : List.range (s2.length + 1) = tab (levIdx s1 s2 0) 0 (s2.length + 1) := by
    rw [range_eq_tab]
    refine tab_congr _ _ _ _ ?_
    intro t _
    rw [levIdx_zero_left]
  rw [h0]
  have h1 := dpMatAux_spec s1 s2 s1 0 (by simp)
  simp only [Nat.sub_zero, Nat.zero_add] at h1
  rw [h1]
  rfl

lemma entry_dpMat (s1 s2 : List α) {i j : Nat} (hi : i ≤ s1.length) (hj : j ≤ s2.length) :
    entry (dpMat s1 s2) i j = levIdx s1 s2 i j := by
  rw [dpMat_spec]
  unfold entry
  rw [tab_getD _ _ (s1.length + 1) 0 i (by omega)]
  rw [tab_getD _ _ (s2.length + 1) 0 j (by omega)]
  simp

lemma levIdx_eq_lev (s1 s2 : List α) :
    ∀ i j, i ≤ s1.length → j ≤ s2.length →
      levIdx s1 s2 i j = lev ((s1.take i).reverse) ((s2.take j).reverse) := by
  intro i
  induction i with
  | zero =>
      intro j _ hj
      rw [levIdx_zero_left]
      rw [show lev ((s1.take 0).reverse) ((s2.take j).reverse) =
            ((s2.take j).reverse).length from by simp [lev]]
      simp [List.length_take]
      omega
  | succ i ih =>
      intro j hi hj
      induction j with
      | zero =>
          rw [levIdx_zero_right]
          rw [List.take_zero, List.reverse_nil]
          rw [lev_nil_right]
          simp [List.length_take]
          omega
      | succ j ihj =>
          obtain ⟨c, hc⟩ : ∃ c, s1.get? i = some c := by
            cases h : s1.get? i with
            | none =>
                rw [List.get?_eq_none] at h
                omega
            | some c => exact ⟨c, rfl⟩
          obtain ⟨b, hb⟩ : ∃ b, s2.get? j = some b := by
            cases h : s2.get? j with
            | none =>
                rw [List.get?_eq_none] at h
                omega
            | some b => exact ⟨b, rfl⟩
          have hc' : s1[i]? = some c := by
            rw [← List.get?_eq_getElem?]
            exact hc
          have hb' : s2[j]? = some b := by
            rw [← List.get?_eq_getElem?]
            exact hb
          have ht1 : (s1.take (i + 1)).reverse = c :: (s1.take i).reverse := by
            rw [List.take_succ, hc']
            simp
          have ht2 : (s2.take (j + 1)).reverse = b :: (s2.take j).reverse := by
            rw [List.take_succ, hb']
            simp
          rw [levIdx_succ_succ, ht1, ht2]
          rw [show lev (c :: (s1.take i).reverse) (b :: (s2.take j).reverse) =
              min (lev ((s1.take i).reverse) ((s2.take j).reverse) + delta c b)
                (min (lev ((s1.take i).reverse) (b :: (s2.take j).reverse) + 1)
                  (lev (c :: (s1.take i).reverse) ((s2.take j).reverse) + 1))
            from by simp [lev]]
          have hδ : cellDelta s1 s2 i j = delta c b := by
            unfold cellDelta delta
            rw [hc, hb]
            by_cases hcb : c = b <;> simp [hcb]
          rw [hδ]
          rw [ih j (by omega) (by omega)]
          have h2 := ih (j + 1) (by omega) hj
          rw [ht2] at h2
          rw [h2]
          have h3 := ihj (by omega)
          rw [ht1] at h3
          rw [h3]

lemma editDistance_eq_lev (s1 s2 : List α) : editDistance s1 s2 = lev s1 s2 := by
  unfold editDistance
  rw [entry_dpMat s1 s2 le_rfl le_rfl]
  rw [levIdx_eq_lev s1 s2 s1.length s2.length le_rfl le_rfl]
  rw [List.take_length, List.take_length]
  exact lev_reverse s1 s2

/-!
Properties of the traceback walk and of the run-length encoding.
-/

/-- Number of occurrences of operation `o` in an operation list. -/
def countOp (o : Op) : List Op → Nat
  | [] => 0
  | c :: cs => (if c = o then 1 else 0) + countOp o cs

lemma countOp_append (o : Op) (l1 l2 : List Op) :
    countOp o (l1 ++ l2) = countOp o l1 + countOp o l2 := by
  induction l1 with
  | nil => simp [countOp]
  | cons c cs ih => simp [countOp, ih]; omega

lemma countOp_reverse (o : Op) (l : List Op) : countOp o l.reverse = countOp o l := by
  induction l with
  | nil => rfl
  | cons c cs ih =>
      simp only [List.reverse_cons, countOp_append, ih, countOp]
      omega

lemma countOp_total (l : List Op) :
    countOp Op.M l + countOp Op.I l + countOp Op.D l = l.length := by
  induction l with
  | nil => rfl
  | cons c cs ih =>
      cases c <;> simp [countOp, ← ih] <;> omega

lemma walk_eq_step (mat : List (List Nat)) (fuel i j : Nat) :
    walk mat (fuel + 1) i j =
      match stepOf mat i j with
      | none => []
      | some (op, i', j') => op :: walk mat fuel i' j' := by
  cases i with
  | zero =>
      cases j with
      | zero => rfl
      | succ j => rfl
  | succ i =>
      cases j with
      | zero => rfl
      | succ j =>
          cases h : (chooseMove (entry mat i j) (entry mat i (j + 1)) (entry mat (i + 1) j)).1 with
          | M => simp [walk, stepOf, h]
          | I => simp [walk, stepOf, h]
          | D => simp [walk, stepOf, h]

lemma walk_count (mat : List (List Nat)) :
    ∀ fuel i j, i + j ≤ fuel →
      (walk mat fuel i j).length + countOp Op.M (walk mat fuel i j) = i + j := by
  intro fuel
  induction fuel with
  | zero =>
      intro i j h
      rw [show i = 0 from by omega, show j = 0 from by omega]
      simp [walk, countOp]
  | succ fuel ih =>
      intro i j h
      cases i with
      | zero =>
          cases j with
          | zero => simp [walk, countOp]
          | succ j =>
              have h0 := ih 0 j (by omega)
              simp [walk, countOp]
              omega
      | succ i =>
          cases j with
          | zero =>
              have h0 := ih i 0 (by omega)
              simp [walk, countOp]
              omega
          | succ j =>
              cases hc : (chooseMove (entry mat i j) (entry mat i (j + 1)) (entry mat (i + 1) j)).1 with
              | M =>
                  have h0 := ih i j (by omega)
                  simp [walk, hc, countOp]
                  omega
              | I =>
                  have h0 := ih i (j + 1) (by omega)
                  simp [walk, hc, countOp]
                  omega
              | D =>
                  have h0 := ih (i + 1) j (by omega)
                  simp [walk, hc, countOp]
                  omega

lemma walk_ne_nil (mat : List (List Nat)) (fuel i j : Nat) (hf : i + j ≤ fuel)
    (h : i + j ≠ 0) : walk mat fuel i j ≠ [] := by
  intro hnil
  have h0 := walk_count mat fuel i j hf
  rw [hnil] at h0
  simp [countOp] at h0
  omega

lemma runCountOf_cons (o : Op) (n : Nat) (p : Op) (rs : List (Nat × Op)) :
    runCountOf o ((n, p) :: rs) = (if p = o then n else 0) + runCountOf o rs := by
  by_cases h : p = o <;> simp [runCountOf, List.filter_cons, h]

lemma rleLoop_count (o : Op) :
    ∀ (l : List Op) (prev : Op) (cnt : Nat),
      runCountOf o (rleLoop l prev cnt) = (if prev = o then cnt else 0) + countOp o l := by
  intro l
  induction l with
  | nil =>
      intro prev cnt
      by_cases h : prev = o <;> simp [rleLoop, runCountOf, countOp, h]
  | cons c cs ih =>
      intro prev cnt
      by_cases h : prev = c
      · rw [show rleLoop (c :: cs) prev cnt = rleLoop cs c (cnt + 1) from by
          simp [rleLoop, h]]
        rw [ih c (cnt + 1)]
        simp only [countOp]
        rw [h]
        by_cases h2 : c = o <;> simp [h2] <;> omega
      · rw [show rleLoop (c :: cs) prev cnt = (cnt, prev) :: rleLoop cs c 1 from by
          simp [rleLoop, h]]
        rw [runCountOf_cons, ih c 1]
        simp only [countOp]

lemma dpMat_length (s1 s2 : List α) : (dpMat s1 s2).length = s1.length + 1 := by
  rw [dpMat_spec, tab_length]

lemma dpMat_head_length (s1 s2 : List α) :
    ((dpMat s1 s2).headD []).length = s2.length + 1 := by
  rw [dpMat_spec]
  rw [show tab (fun r => tab (levIdx s1 s2 r) 0 (s2.length + 1)) 0 (s1.length + 1) =
        tab (levIdx s1 s2 0) 0 (s2.length + 1) ::
          tab (fun r => tab (levIdx s1 s2 r) 0 (s2.length + 1)) 1 s1.length from rfl]
  simp [tab_length]

lemma alignOps_dpMat (s1 s2 : List α) :
    alignOps (dpMat s1 s2) =
      walk (dpMat s1 s2) (s1.length + s2.length) s1.length s2.length := by
  simp only [alignOps, dpMat_length, dpMat_head_length, Nat.add_sub_cancel]

lemma tracebackRuns_count (s1 s2 : List α) (o : Op) :
    runCountOf o (tracebackRuns (dpMat s1 s2)) = countOp o (alignOps (dpMat s1 s2)) := by
  unfold tracebackRuns
  cases hrev : (alignOps (dpMat s1 s2)).reverse with
  | nil =>
      have h0 : alignOps (dpMat s1 s2) = [] := by rwa [List.reverse_eq_nil_iff] at hrev
      rw [h0]
      simp [runCountOf, countOp]
  | cons c cs =>
      have h0 : countOp o (alignOps (dpMat s1 s2)) = countOp o (c :: cs) := by
        rw [← countOp_reverse, hrev]
      rw [h0, rleLoop_count]
      simp only [countOp]

lemma traceback_dpMat_isSome (s1 s2 : List α) (h : s1.length + s2.length ≠ 0) :
    (traceback (dpMat s1 s2)).isSome = true := by
  have hne : alignOps (dpMat s1 s2) ≠ [] := by
    rw [alignOps_dpMat]
    exact walk_ne_nil _ _ _ _ le_rfl h
  unfold traceback
  cases hrev : (alignOps (dpMat s1 s2)).reverse with
  | nil => exact absurd (by rwa [List.reverse_eq_nil_iff] at hrev) hne
  | cons c cs => rfl

/-!
Concrete inputs used by witnesses and counterexamples.
-/

/-- `s1` of the repo's `diff_length` test. -/
def exS1 : List Char := ("ACGTAAACAC").toList

/-- `s2` of the repo's `diff_length` test. -/
def exS2 : List Char := ("ACGTAACAC").toList

/-- A two-character sequence whose alignment exercises an interior "I". -/
def exAB : List Char := ("AB").toList

/-- A one-character sequence. -/
def exA : List Char := ("A").toList

/-- A needle on which the failure table is not the KMP failure function. -/
def kmpNeedle : List Char := ("ABABAAB").toList

/-- A haystack on which `kmp` reports a match that does not exist. -/
def kmpHaystack : List Char := ("ABABAAAAB").toList

/-!
The claims.
-/

/-- C1: on the empty/empty pair the source panics (`unwrap` of `None` on the
empty alignment string inside `traceback`) instead of returning
`{0, ""}` as the spec requires; the modelled result is `none`. -/
theorem claim1_empty_empty_panics : compute_alignment ("") ("") = none := by decide

/-- C2: the DP matrix built by `edit_dist` has `matrix[0][j] = j`,
`matrix[i][0] = i`, every interior cell is the minimum of
diagonal + mismatch, up + 1 and left + 1, the returned `edit_distance` is
the bottom-right cell, and that cell is the Levenshtein distance of the two
sequences. -/
theorem claim2_dp_matrix_invariants (s1 s2 : List α) :
    (∀ j, j ≤ s2.length → entry (dpMat s1 s2) 0 j = j) ∧
    (∀ i, i ≤ s1.length → entry (dpMat s1 s2) i 0 = i) ∧
    (∀ i j, 1 ≤ i → i ≤ s1.length → 1 ≤ j → j ≤ s2.length →
      entry (dpMat s1 s2) i j =
        min (entry (dpMat s1 s2) (i - 1) (j - 1) + cellDelta s1 s2 (i - 1) (j - 1))
          (min (entry (dpMat s1 s2) (i - 1) j + 1) (entry (dpMat s1 s2) i (j - 1) + 1))) ∧
    (∀ r, edit_dist s1 s2 = some r →
      r.edit_dist = entry (dpMat s1 s2) s1.length s2.length) ∧
    entry (dpMat s1 s2) s1.length s2.length = lev s1 s2 := by
  refine ⟨?_, ?_, ?_, ?_, ?_⟩
  · intro j hj
    rw [entry_dpMat s1 s2 (by omega) hj, levIdx_zero_left]
  · intro i hi
    rw [entry_dpMat s1 s2 hi (by omega), levIdx_zero_right]
  · intro i j h1 h2 h3 h4
    obtain ⟨i', rfl⟩ : ∃ i', i = i' + 1 := ⟨i - 1, by omega⟩
    obtain ⟨j', rfl⟩ : ∃ j', j = j' + 1 := ⟨j - 1, by omega⟩
    simp only [Nat.add_sub_cancel]
    rw [entry_dpMat s1 s2 h2 h4, entry_dpMat s1 s2 (by omega) (by omega),
      entry_dpMat s1 s2 (by omega) (by omega), entry_dpMat s1 s2 (by omega) (by omega)]
    exact levIdx_succ_succ s1 s2 i' j'
  · intro r hr
    simp only [edit_dist] at hr
    cases htb : traceback (dpMat s1 s2) with
    | none =>
        rw [htb] at hr
        simp at hr
    | some cig =>
        rw [htb] at hr
        simp only [Option.map_some', Option.some.injEq] at hr
        rw [← hr]
  · exact editDistance_eq_lev s1 s2

/-- Witness for C2 at the interior cell `(1, 1)` of the `"AB"` / `"A"`
matrix. -/
theorem claim2_witness :
    entry (dpMat exAB exA) 1 1 =
      min (entry (dpMat exAB exA) 0 0 + cellDelta exAB exA 0 0)
        (min (entry (dpMat exAB exA) 0 1 + 1) (entry (dpMat exAB exA) 1 0 + 1)) :=
  (claim2_dp_matrix_invariants exAB exA).2.2.1 1 1 (by decide) (by decide) (by decide) (by decide)

/-- C3 counterexample: on the repo's own `diff_length` test the cigar is
`"6M1I3M"`, whose M+D run counts sum to 9 ≠ len(seq1) = 10 and whose M+I
run counts sum to 10 ≠ len(seq2) = 9. -/
theorem claim3_counterexample :
    runCountOf Op.M (tracebackRuns (dpMat exS1 exS2)) +
        runCountOf Op.D (tracebackRuns (dpMat exS1 exS2)) ≠ exS1.length ∧
      runCountOf Op.M (tracebackRuns (dpMat exS1 exS2)) +
        runCountOf Op.I (tracebackRuns (dpMat exS1 exS2)) ≠ exS2.length := by
  refine ⟨by decide, by decide⟩

/-- C3 (amended): the per-token attribution of I and D to one fixed
sequence does not hold (at interior cells "I" consumes seq1 and "D"
consumes seq2, while at the matrix edges the roles are swapped); what holds
unconditionally is that the run counts of all tokens plus the run counts of
M tokens sum to len(seq1) + len(seq2). -/
theorem claim3_cigar_counts (s1 s2 : List α) :
    (runCountOf Op.M (tracebackRuns (dpMat s1 s2)) +
        runCountOf Op.I (tracebackRuns (dpMat s1 s2)) +
        runCountOf Op.D (tracebackRuns (dpMat s1 s2))) +
      runCountOf Op.M (tracebackRuns (dpMat s1 s2)) = s1.length + s2.length := by
  have hM := tracebackRuns_count s1 s2 Op.M
  have hI := tracebackRuns_count s1 s2 Op.I
  have hD := tracebackRuns_count s1 s2 Op.D
  have htot := countOp_total (alignOps (dpMat s1 s2))
  have hlen : (alignOps (dpMat s1 s2)).length +
      countOp Op.M (alignOps (dpMat s1 s2)) = s1.length + s2.length := by
    rw [alignOps_dpMat]
    exact walk_count _ _ _ _ le_rfl
  omega

/-- C4 counterexample: at the interior cell `(2, 1)` of the `"AB"` / `"A"`
matrix the traceback emits Insertion but moves up to `(1, 1)`, not left to
`(2, 0)` as the claim states. -/
theorem claim4_counterexample :
    stepOf (dpMat exAB exA) 2 1 = some (Op.I, 1, 1) ∧
      stepOf (dpMat exAB exA) 2 1 ≠ some (Op.I, 2, 0) := by
  refine ⟨by decide, by decide⟩

/-- C4 (amended): every traceback step emits its operation and moves as the
code does: Match moves diagonally; Insertion moves left along row 0 but up
at interior cells; Deletion moves up along column 0 but left at interior
cells. -/
theorem claim4_traceback_moves (mat : List (List Nat)) (fuel i j : Nat) (op : Op) (i' j' : Nat)
    (h : stepOf mat i j = some (op, i', j')) :
    walk mat (fuel + 1) i j = op :: walk mat fuel i' j' ∧
    (op = Op.M → 0 < i ∧ 0 < j ∧ i' = i - 1 ∧ j' = j - 1) ∧
    (op = Op.I →
      (i = 0 → 0 < j ∧ i' = 0 ∧ j' = j - 1) ∧ (0 < i → 0 < j ∧ i' = i - 1 ∧ j' = j)) ∧
    (op = Op.D →
      (j = 0 → 0 < i ∧ i' = i - 1 ∧ j' = 0) ∧ (0 < j → 0 < i ∧ i' = i ∧ j' = j - 1)) := by
  refine ⟨by rw [walk_eq_step, h], ?_, ?_, ?_⟩
  · rintro rfl
    cases i with
    | zero =>
        cases j with
        | zero => simp [stepOf] at h
        | succ j => simp [stepOf] at h
    | succ i =>
        cases j with
        | zero => simp [stepOf] at h
        | succ j =>
            cases hc : (chooseMove (entry mat i j) (entry mat i (j + 1)) (entry mat (i + 1) j)).1 with
            | M =>
                simp only [stepOf, hc, Option.some.injEq, Prod.mk.injEq, true_and] at h
                omega
            | I => simp [stepOf, hc] at h
            | D => simp [stepOf, hc] at h
  · rintro rfl
    cases i with
    | zero =>
        cases j with
        | zero => simp [stepOf] at h
        | succ j =>
            simp only [stepOf, Option.some.injEq, Prod.mk.injEq, true_and] at h
            omega
    | succ i =>
        cases j with
        | zero => simp [stepOf] at h
        | succ j =>
            cases hc : (chooseMove (entry mat i j) (entry mat i (j + 1)) (entry mat (i + 1) j)).1 with
            | M => simp [stepOf, hc] at h
            | I =>
                simp only [stepOf, hc, Option.some.injEq, Prod.mk.injEq, true_and] at h
                omega
            | D => simp [stepOf, hc] at h
  · rintro rfl
    cases i with
    | zero =>
        cases j with
        | zero => simp [stepOf] at h
        | succ j => simp [stepOf] at h
    | succ i =>
        cases j with
        | zero =>
            simp only [stepOf, Option.some.injEq, Prod.mk.injEq, true_and] at h
            omega
        | succ j =>
            cases hc : (chooseMove (entry mat i j) (entry mat i (j + 1)) (entry mat (i + 1) j)).1 with
            | M => simp [stepOf, hc] at h
            | I => simp [stepOf, hc] at h
            | D =>
                simp only [stepOf, hc, Option.some.injEq, Prod.mk.injEq, true_and] at h
                omega

/-- Witness for C4: the interior Insertion step at `(2, 1)` of the
`"AB"` / `"A"` matrix prepends `I` and continues from `(1, 1)`. -/
theorem claim4_witness :
    walk (dpMat exAB exA) 3 2 1 = Op.I :: walk (dpMat exAB exA) 2 1 1 :=
  (claim4_traceback_moves (dpMat exAB exA) 2 2 1 Op.I 1 1 (by decide)).1

/-- C5: the stable sort over `[("M", m), ("I", i), ("D", d)]` selects by the
fixed priority Match/Mismatch > Insertion > Deletion on cost ties: "M" wins
whenever the diagonal attains the minimum, "I" beats "D" on ties below the
diagonal; the selected cost (the builder's cell value) is the minimum, and
the traceback's interior step emits exactly the selected operation. -/
theorem claim5_tie_break (m i d : Nat) (mat : List (List Nat)) (i' j' : Nat) :
    ((chooseMove m i d).1 = Op.M ↔ m ≤ i ∧ m ≤ d) ∧
    ((chooseMove m i d).1 = Op.I ↔ i < m ∧ i ≤ d) ∧
    ((chooseMove m i d).1 = Op.D ↔ d < m ∧ d < i) ∧
    (chooseMove m i d).2 = min m (min i d) ∧
    (stepOf mat (i' + 1) (j' + 1)).map Prod.fst =
      some (chooseMove (entry mat i' j') (entry mat i' (j' + 1)) (entry mat (i' + 1) j')).1 := by
  refine ⟨?_, ?_, ?_, chooseMove_snd m i d, ?_⟩
  · rw [chooseMove_def]
    split_ifs <;> simp <;> omega
  · rw [chooseMove_def]
    split_ifs <;> simp <;> omega
  · rw [chooseMove_def]
    split_ifs <;> simp <;> omega
  · cases hc : (chooseMove (entry mat i' j') (entry mat i' (j' + 1)) (entry mat (i' + 1) j')).1 with
    | M => simp [stepOf, hc]
    | I => simp [stepOf, hc]
    | D => simp [stepOf, hc]

/-- C6: the five concrete input pairs of the spec produce exactly the
stated distance/cigar pairs. -/
theorem claim6_worked_examples :
    compute_alignment ("") ("ABC") = some ⟨3, "3I"⟩ ∧
    compute_alignment ("ABC") ("") = some ⟨3, "3D"⟩ ∧
    compute_alignment ("ACGTA") ("GCGTA") = some ⟨1, "5M"⟩ ∧
    compute_alignment ("ACGTAAACAC") ("ACGTAACAC") = some ⟨1, "6M1I3M"⟩ ∧
    compute_alignment ("ACGTCACACGTGGGGCACACACAGGGGTTGTGTG") ("ACGTCACACGTGGGGCACACACA") =
      some ⟨11, "23M11I"⟩ := by
  refine ⟨by decide, by decide, by decide, by decide, by decide⟩

/-- C7: the edit distance is symmetric: swapping the inputs leaves the
`edit_dist` field unchanged (on the empty/empty pair both directions panic
alike). -/
theorem claim7_symmetry (a b : List α) :
    (edit_dist a b).map AlignResult.edit_dist = (edit_dist b a).map AlignResult.edit_dist := by
  by_cases hab : a = [] ∧ b = []
  · obtain ⟨rfl, rfl⟩ := hab
    rfl
  · have hl1 : a.length + b.length ≠ 0 := by
      have h0 : ¬(a.length = 0 ∧ b.length = 0) := fun ⟨h1, h2⟩ =>
        hab ⟨List.length_eq_zero.mp h1, List.length_eq_zero.mp h2⟩
      omega
    have hl2 : b.length + a.length ≠ 0 := by omega
    obtain ⟨s, hs⟩ := Option.isSome_iff_exists.mp (traceback_dpMat_isSome a b hl1)
    obtain ⟨t, ht⟩ := Option.isSome_iff_exists.mp (traceback_dpMat_isSome b a hl2)
    simp only [edit_dist]
    rw [hs, ht]
    simp only [Option.map_some']
    show some (editDistance a b) = some (editDistance b a)
    rw [editDistance_eq_lev, editDistance_eq_lev, lev_comm]

/-- C8: the distances computed by the builder satisfy the triangle
inequality. -/
theorem claim8_triangle (a b c : List α) :
    editDistance a c ≤ editDistance a b + editDistance b c := by
  rw [editDistance_eq_lev, editDistance_eq_lev, editDistance_eq_lev]
  exact lev_triangle a b c

/-- C9: with the table built by `return_failure_function_table`, `kmp`
reports a match of `"ABABAAB"` at offset 2 of `"ABABAAAAB"` although the
needle occurs nowhere in that haystack (no length-7 window equals it), so
`kmp` is neither sound nor "None exactly when absent". -/
theorem claim9_kmp_false_match :
    kmp_wrapper kmpNeedle kmpHaystack = some (some 2) ∧
      ∀ k : Nat, (kmpHaystack.drop k).take kmpNeedle.length ≠ kmpNeedle := by
  constructor
  · decide
  · intro k
    rcases lt_or_ge k 10 with hk | hk
    · interval_cases k <;> decide
    · have hd : kmpHaystack.drop k = [] := by
        apply List.drop_eq_nil_of_le
        have h9 : kmpHaystack.length = 9 := by decide
        omega
      rw [hd]
      decide

/-- C10: whenever at least one input is non-empty, `edit_dist` completes
without the panic (the traceback alignment is non-empty) and returns
`Some`. -/
theorem claim10_total_some (s1 s2 : List α) (h : s1 ≠ [] ∨ s2 ≠ []) :
    (edit_dist s1 s2).isSome = true := by
  have hl : s1.length + s2.length ≠ 0 := by
    rcases h with h | h
    · have h0 : s1.length ≠ 0 := fun h0 => h (List.length_eq_zero.mp h0)
      omega
    · have h0 : s2.length ≠ 0 := fun h0 => h (List.length_eq_zero.mp h0)
      omega
  obtain ⟨s, hs⟩ := Option.isSome_iff_exists.mp (traceback_dpMat_isSome s1 s2 hl)
  simp only [edit_dist]
  rw [hs]
  rfl

/-- Witness for C10 on the pair `"A"` / `""`. -/
theorem claim10_witness : (edit_dist exA ([] : List Char)).isSome = true :=
  claim10_total_some exA [] (Or.inl (by decide))

end RustPractice
